import Mathlib

/-!
A verification development for the utoipa-annotation script
(scripts/add_utoipa_annotations.py).

The script is a regex-driven text transform.  Its core is

  pattern = ((?:#\[[^d][^\]]*\]\s*|#\[d(?!erive\()[^\]]*\]\s*)*)
            ((?:#\[derive\([^)]+\)\]\s*)+)
            ((?:#\[[^\]]+\]\s*)*)
            ((?:///[^\n]*\n\s*)*)
            (pub (?:struct|enum) (\w+))

applied with re.sub and a replacement function add_separate_derive,
plus a brace-matching body extractor and two hardcoded exclusion lists.

The embedding below models text as List Char.  Each quantified element of
the pattern has a unique possible span at a given position (each of its
inner quantifiers is a maximal-munch up to a terminator character that the
character class excludes, and shortening a trailing whitespace run can
never help, because every continuation of the pattern begins with a
non-whitespace character).  Consequently Python's backtracking only
matters for the number of derive elements kept by group 2: the engine
keeps the maximal munch of groups 1, 3, 4 and releases derive elements of
group 2 one at a time (releases of groups 1, 3, 4 dead-end at once, since
no continuation of the pattern can begin at the start of a released
element).  The matcher below implements exactly that search order.

Loops over text use an explicit fuel argument (instantiated with the text
length) so that every definition evaluates by kernel reduction; each
pattern element consumes at least four characters and each substitution
step consumes at least one, so the fuel never runs out before the loop is
finished.  All lemmas below are proved for every fuel value, so no
fuel-sufficiency hypotheses appear in the theorems.

Modelling notes: characters are Unicode as in Python.  The regex class \s
and str.rstrip are modelled by the whitespace set of Python's str type;
the class \w is modelled by ASCII letters, digits and underscore (the
source files the script is aimed at use ASCII identifiers).
-/

namespace UtoipaScript

abbrev Chars := List Char

/-- The opening brace character, written via its code point. -/
def lbrace : Char := Char.ofNat 123

/-- The closing brace character, written via its code point. -/
def rbrace : Char := Char.ofNat 125

/-- Whitespace as matched by Python's \s on str and stripped by
str.rstrip: ASCII whitespace plus the Unicode space characters. -/
def pySpaceChars : Chars :=
  [' ', '\t', '\n', '\r', Char.ofNat 11, Char.ofNat 12,
   Char.ofNat 28, Char.ofNat 29, Char.ofNat 30, Char.ofNat 31,
   Char.ofNat 133, Char.ofNat 160, Char.ofNat 5760,
   Char.ofNat 8192, Char.ofNat 8193, Char.ofNat 8194, Char.ofNat 8195,
   Char.ofNat 8196, Char.ofNat 8197, Char.ofNat 8198, Char.ofNat 8199,
   Char.ofNat 8200, Char.ofNat 8201, Char.ofNat 8202,
   Char.ofNat 8232, Char.ofNat 8233, Char.ofNat 8239,
   Char.ofNat 8287, Char.ofNat 12288]

def isPySpace (c : Char) : Bool := pySpaceChars.contains c

/-- Word characters for \w (ASCII model). -/
def isPyWord (c : Char) : Bool := c.isAlpha || c.isDigit || c == '_'

/-- Python str.rstrip(): drop trailing whitespace. -/
def pyRstrip (s : Chars) : Chars := (s.reverse.dropWhile isPySpace).reverse

/-- Match a literal: if the literal is a prefix of the text, return the
remainder. -/
def matchLit : Chars → Chars → Option Chars
  | [], s => some s
  | _ :: _, [] => none
  | p :: ps, c :: cs => if c = p then matchLit ps cs else none

/-- Python substring test (the `in` operator on str). -/
def containsSub (needle : Chars) : Chars → Bool
  | [] => needle.isEmpty
  | h :: t => (matchLit needle (h :: t)).isSome || containsSub needle t

/-- Tail of a bracket attribute: [^\]]* then the closing bracket, then \s*.
`pre` is the span already consumed.  Returns (full span, rest). -/
def attrTail (pre : Chars) (rest : Chars) : Option (Chars × Chars) :=
  match rest.dropWhile (fun c => !(c == ']')) with
  | ']' :: r2 =>
    some (pre ++ (rest.takeWhile (fun c => !(c == ']')) ++ (']' :: r2.takeWhile isPySpace)),
          r2.dropWhile isPySpace)
  | _ => none

/-- One element of group 1 of the pattern:
`#\[[^d][^\]]*\]\s*` or `#\[d(?!erive\()[^\]]*\]\s*`
(a bracket attribute that is not a derive attribute). -/
def matchAttrA : Chars → Option (Chars × Chars)
  | '#' :: '[' :: c :: rest =>
    if c = 'd' then
      if (matchLit "erive(".toList rest).isSome then none
      else attrTail ['#', '[', c] rest
    else attrTail ['#', '[', c] rest
  | _ => none

/-- One element of group 2 of the pattern: `#\[derive\([^)]+\)\]\s*`. -/
def matchDeriveB (s : Chars) : Option (Chars × Chars) :=
  match matchLit "#[derive(".toList s with
  | none => none
  | some r =>
    match r.dropWhile (fun c => !(c == ')')) with
    | ')' :: ']' :: r3 =>
      if (r.takeWhile (fun c => !(c == ')'))).isEmpty then none
      else
        some ("#[derive(".toList ++
                (r.takeWhile (fun c => !(c == ')')) ++ (')' :: ']' :: r3.takeWhile isPySpace)),
              r3.dropWhile isPySpace)
    | _ => none

/-- One element of group 3 of the pattern: `#\[[^\]]+\]\s*`. -/
def matchAttrC : Chars → Option (Chars × Chars)
  | '#' :: '[' :: rest =>
    match rest.dropWhile (fun c => !(c == ']')) with
    | ']' :: r2 =>
      if (rest.takeWhile (fun c => !(c == ']'))).isEmpty then none
      else
        some ('#' :: '[' :: (rest.takeWhile (fun c => !(c == ']')) ++ (']' :: r2.takeWhile isPySpace)),
              r2.dropWhile isPySpace)
    | _ => none
  | _ => none

/-- One element of group 4 of the pattern: `///[^\n]*\n\s*`. -/
def matchDocD (s : Chars) : Option (Chars × Chars) :=
  match matchLit "///".toList s with
  | none => none
  | some r =>
    match r.dropWhile (fun c => !(c == '\n')) with
    | '\n' :: r2 =>
      some ("///".toList ++ (r.takeWhile (fun c => !(c == '\n')) ++ ('\n' :: r2.takeWhile isPySpace)),
            r2.dropWhile isPySpace)
    | _ => none

/-- Group 5 of the pattern: `pub (?:struct|enum) (\w+)`.
Returns (span, captured name, rest). -/
def matchHeaderE (s : Chars) : Option (Chars × Chars × Chars) :=
  match matchLit "pub ".toList s with
  | none => none
  | some r =>
    match matchLit "struct ".toList r with
    | some r2 =>
      if (r2.takeWhile isPyWord).isEmpty then none
      else some ("pub struct ".toList ++ r2.takeWhile isPyWord, r2.takeWhile isPyWord,
                 r2.dropWhile isPyWord)
    | none =>
      match matchLit "enum ".toList r with
      | some r2 =>
        if (r2.takeWhile isPyWord).isEmpty then none
        else some ("pub enum ".toList ++ r2.takeWhile isPyWord, r2.takeWhile isPyWord,
                   r2.dropWhile isPyWord)
      | none => none

/-- Greedy loop of group-1 elements (fueled; fuel is instantiated with the
text length, which suffices since each element consumes characters). -/
def munchAF : Nat → Chars → Chars × Chars
  | 0, s => ([], s)
  | fuel + 1, s =>
    match matchAttrA s with
    | none => ([], s)
    | some (sp, r) =>
      let p := munchAF fuel r
      (sp ++ p.1, p.2)

/-- Greedy loop of group-2 elements, keeping the individual spans. -/
def munchBF : Nat → Chars → List Chars × Chars
  | 0, s => ([], s)
  | fuel + 1, s =>
    match matchDeriveB s with
    | none => ([], s)
    | some (sp, r) =>
      let p := munchBF fuel r
      (sp :: p.1, p.2)

/-- Greedy loop of group-3 elements. -/
def munchCF : Nat → Chars → Chars × Chars
  | 0, s => ([], s)
  | fuel + 1, s =>
    match matchAttrC s with
    | none => ([], s)
    | some (sp, r) =>
      let p := munchCF fuel r
      (sp ++ p.1, p.2)

/-- Greedy loop of group-4 elements. -/
def munchDF : Nat → Chars → Chars × Chars
  | 0, s => ([], s)
  | fuel + 1, s =>
    match matchDocD s with
    | none => ([], s)
    | some (sp, r) =>
      let p := munchDF fuel r
      (sp ++ p.1, p.2)

def munchA (s : Chars) : Chars × Chars := munchAF s.length s
def munchB (s : Chars) : List Chars × Chars := munchBF s.length s
def munchC (s : Chars) : Chars × Chars := munchCF s.length s
def munchD (s : Chars) : Chars × Chars := munchDF s.length s

/-- The captured groups of one match of the pattern. -/
structure Groups where
  g1 : Chars
  g2 : Chars
  g3 : Chars
  g4 : Chars
  g5 : Chars
  name : Chars
deriving DecidableEq, Repr

/-- match.group(0): the whole matched span. -/
def wholeMatch (g : Groups) : Chars := g.g1 ++ (g.g2 ++ (g.g3 ++ (g.g4 ++ g.g5)))

/-- Groups 3-5 of the pattern at a given position: greedy group-3 munch,
then greedy group-4 munch, then the header.  Returns (g3, g4, g5, name,
rest).  (Releasing elements of these munches can never lead to a match:
the header begins with the letter p, while released positions begin with
the characters of an attribute or doc comment.) -/
def tryTail (tail : Chars) : Option (Chars × Chars × Chars × Chars × Chars) :=
  match matchHeaderE (munchD (munchC tail).2).2 with
  | some (e, nm, r5) => some ((munchC tail).1, (munchD (munchC tail).2).1, e, nm, r5)
  | none => none

/-- Backtracking over the number of derive elements kept in group 2,
largest count first, as Python's engine does for the greedy +.
`rev` holds the B-element spans in reverse order; `tail` is the text
after them.  On failure the last derive element is released and is then
re-scanned by the group-3 munch. -/
def tryBranchesRev : List Chars → Chars → Option (Chars × Chars × Chars × Chars × Chars × Chars)
  | [], _ => none
  | b :: rest, tail =>
    match tryTail tail with
    | some (c, d, e, nm, r5) => some ((b :: rest).reverse.flatten, c, d, e, nm, r5)
    | none => tryBranchesRev rest (b ++ tail)

/-- Try to match the whole pattern at the start of `s`.  Group 1 is the
maximal munch (a released group-1 element can never start group 2, since
group-1 elements are exactly the non-derive attributes). -/
def tryFrom (s : Chars) : Option (Groups × Chars) :=
  match tryBranchesRev (munchB (munchA s).2).1.reverse (munchB (munchA s).2).2 with
  | some (g2, c, d, e, nm, r5) =>
    some ({ g1 := (munchA s).1, g2 := g2, g3 := c, g4 := d, g5 := e, name := nm }, r5)
  | none => none

/-- Leftmost match: try every start position from the left, as re.sub
does.  Returns (text before the match, groups, text after the match). -/
def findMatch : Chars → Option (Chars × Groups × Chars)
  | [] =>
    match tryFrom [] with
    | some (g, r) => some ([], g, r)
    | none => none
  | ch :: cs =>
    match tryFrom (ch :: cs) with
    | some (g, r) => some ([], g, r)
    | none =>
      match findMatch cs with
      | some (pre, g, r) => some (ch :: pre, g, r)
      | none => none

/-- The brace-matching loop of add_separate_derive, translated from the
Python for-loop: `count` is brace_count, `inS` is in_struct.  The char
that makes the count zero while in_struct triggers break (and is not
collected); otherwise chars are collected exactly when in_struct. -/
def extractBody : Chars → Int → Bool → Chars
  | [], _, _ => []
  | ch :: rest, count, inS =>
    if ch = lbrace then ch :: extractBody rest (count + 1) true
    else if ch = rbrace then
      if count - 1 = 0 && inS then []
      else if inS then ch :: extractBody rest (count - 1) inS
      else extractBody rest (count - 1) inS
    else if inS then ch :: extractBody rest count inS
    else extractBody rest count inS

/-- struct_content as computed for the text following a match. -/
def structContent (rest : Chars) : Chars := extractBody rest 0 false

/-- types_to_skip from the script. -/
def typesToSkip : List Chars :=
  ["CreateSpeechResponse".toList,
   "AssistantStreamEvent".toList,
   "ImageResponse".toList,
   "Image".toList]

/-- The field-type exclusion substrings from the script. -/
def problematicTypes : List Chars :=
  ["Bytes".toList, "ApiError".toList, "Arc<".toList, "PathBuf".toList,
   "InputSource".toList, "WebSearchPreview".toList, "AudioInput".toList,
   "FileInput".toList, "HostedToolType".toList, "ToolDefinition".toList,
   "ImageInput".toList, "ResponseMetadata".toList]

/-- The idempotency marker checked inside the existing derive block. -/
def markerStr : Chars := "utoipa::ToSchema".toList

/-- The inserted text between the existing derives and what follows. -/
def markerLine : Chars := "\n#[derive(utoipa::ToSchema)]\n".toList

/-- The literal that starts every derive attribute. -/
def deriveOpenStr : Chars := "#[derive(".toList

/-- add_separate_derive: the replacement function.  `rest` is the text of
the original content following the match (content[match.end():]). -/
def addSeparateDerive (g : Groups) (rest : Chars) : Chars :=
  let existingDerives := pyRstrip g.g2
  if containsSub markerStr existingDerives then wholeMatch g
  else if typesToSkip.contains g.name then wholeMatch g
  else if problematicTypes.any (fun p => containsSub p (structContent rest)) then
    wholeMatch g
  else if !g.g3.isEmpty then
    g.g1 ++ (existingDerives ++ (markerLine ++ (g.g3 ++ (g.g4 ++ g.g5))))
  else
    g.g1 ++ (existingDerives ++ (markerLine ++ (g.g4 ++ g.g5)))

/-- Whether a match passes all three skip checks and is annotated. -/
def qualifies (g : Groups) (rest : Chars) : Bool :=
  !containsSub markerStr (pyRstrip g.g2) &&
  !typesToSkip.contains g.name &&
  !problematicTypes.any (fun p => containsSub p (structContent rest))

/-- re.sub: rewrite every non-overlapping match left to right (fueled;
each match consumes at least one character of the remaining text, so the
text length is enough fuel). -/
def reSubAllF : Nat → Chars → Chars
  | 0, s => s
  | fuel + 1, s =>
    match findMatch s with
    | none => s
    | some (pre, g, rest) => pre ++ (addSeparateDerive g rest ++ reSubAllF fuel rest)

def reSubAll (s : Chars) : Chars := reSubAllF s.length s

/-- The number of matches that are actually annotated during the pass. -/
def annotationsF : Nat → Chars → Nat
  | 0, _ => 0
  | fuel + 1, s =>
    match findMatch s with
    | none => 0
    | some (_, g, rest) => (if qualifies g rest then 1 else 0) + annotationsF fuel rest

def annotationsOf (s : Chars) : Nat := annotationsF s.length s

/-- The pure core of add_utoipa_to_file: the rewritten text and the
changed flag (modified != original_content). -/
def addUtoipaText (s : Chars) : Chars × Bool :=
  let m := reSubAll s
  (m, decide (m ≠ s))

/-- The body-extraction algorithm as the specification describes it,
written as a two-phase scan: iterate character by character, keeping a
depth counter that every opening brace increments and every closing brace
decrements; collection of the body begins at the first opening brace, and
the scan stops at the closing brace whose decrement returns the depth
counter to zero, after at least one brace has been opened (collection is
only ever active after the first opening brace). -/
def specCollect : Chars → Int → Chars
  | [], _ => []
  | c :: t, d =>
    if c = lbrace then c :: specCollect t (d + 1)
    else if c = rbrace then
      if d - 1 = 0 then [] else c :: specCollect t (d - 1)
    else c :: specCollect t d

/-- Phase one of the specification reading: characters before the first
opening brace are not collected, but closing braces among them still
decrement the depth counter. -/
def extractBodySpec (s : Chars) : Chars :=
  let pre := s.takeWhile (fun c => !(c == lbrace))
  match s.dropWhile (fun c => !(c == lbrace)) with
  | [] => []
  | c :: t => specCollect (c :: t) (-(pre.count rbrace : Int))

/-- Number of colon characters in a text (the inserted marker line adds
exactly two, and nothing else in a rewrite step changes this count). -/
def countColon (s : Chars) : Nat := s.count ':'

/-- Result of a Python expression that may raise: either a value or an
exception carrying its message. -/
inductive PyResult (α : Type) where
  | ok : α → PyResult α
  | exn : Chars → PyResult α

/-- The message printed by the except-branch of add_utoipa_to_file. -/
def errorLine (filePath e : Chars) : Chars :=
  "Error processing ".toList ++ filePath ++ (": ".toList ++ e)

/-- add_utoipa_to_file with the file read modelled as a PyResult: the
try-block computes the transform on the text that was read; the
except-branch prints the error with the file name (modelled as a returned
log line) and yields (None, False). -/
def addUtoipaToFile (filePath : Chars) (readResult : PyResult Chars) :
    (Option Chars × Bool) × List Chars :=
  match readResult with
  | .ok content =>
    let r := addUtoipaText content
    ((some r.1, r.2), [])
  | .exn e => ((none, false), [errorLine filePath e])

/-- One file to process: its name and the outcome of reading it. -/
structure FileEntry where
  name : Chars
  read : PyResult Chars

/-- What the processing loop does with one file: `failed` is the
"result is None: continue" branch, the others follow was_modified. -/
inductive Outcome where
  | failed
  | modifiedFile
  | unchanged
deriving DecidableEq, Repr

/-- The per-file branch of the processing loop of process_types_directory. -/
def processOne (f : FileEntry) : Outcome :=
  match addUtoipaToFile f.name f.read with
  | ((none, _), _) => .failed
  | ((some _, true), _) => .modifiedFile
  | ((some _, false), _) => .unchanged

/-- The processing loop: every file in the list is processed in order;
no outcome of an earlier file stops the loop. -/
def processFiles (fs : List FileEntry) : List Outcome := fs.map processOne

/-! ### Splitting lemmas: every successful matcher splits its input -/

theorem matchLit_eq (p : Chars) : ∀ s r, matchLit p s = some r → s = p ++ r := by
  induction p with
  | nil =>
    intro s r h
    simp only [matchLit, Option.some.injEq] at h
    simp [h]
  | cons a ps ih =>
    intro s r h
    cases s with
    | nil => simp [matchLit] at h
    | cons c cs =>
      simp only [matchLit] at h
      split at h
      · next heq =>
        have h2 := ih cs r h
        simp [heq, h2]
      · exact absurd h (by simp)

theorem matchLit_self_append (p t : Chars) : matchLit p (p ++ t) = some t := by
  induction p with
  | nil => simp [matchLit]
  | cons a ps ih => simp [matchLit, ih]

theorem attrTail_split (pre rest sp r : Chars)
    (h : attrTail pre rest = some (sp, r)) : pre ++ rest = sp ++ r := by
  unfold attrTail at h
  split at h
  · next r2 heq =>
    simp only [Option.some.injEq, Prod.mk.injEq] at h
    obtain ⟨hsp, hr⟩ := h
    have hsplit := List.takeWhile_append_dropWhile (fun c => !(c == ']')) rest
    rw [heq] at hsplit
    have hw := List.takeWhile_append_dropWhile isPySpace r2
    subst hsp hr
    simp only [List.append_assoc, List.cons_append]
    rw [hw]
    conv_lhs => rw [← hsplit]
  · exact absurd h (by simp)

theorem matchAttrA_split (s sp r : Chars)
    (h : matchAttrA s = some (sp, r)) : s = sp ++ r := by
  unfold matchAttrA at h
  split at h
  · next c rest =>
    split at h
    · split at h
      · exact absurd h (by simp)
      · exact (attrTail_split _ _ _ _ h).symm ▸ rfl
    · exact (attrTail_split _ _ _ _ h).symm ▸ rfl
  · exact absurd h (by simp)

theorem matchDeriveB_split (s sp r : Chars)
    (h : matchDeriveB s = some (sp, r)) : s = sp ++ r := by
  unfold matchDeriveB at h
  generalize hm : matchLit "#[derive(".toList s = m at h
  cases m with
  | none => exact absurd h (by simp)
  | some rr =>
    have hs := matchLit_eq _ _ _ hm
    simp only [] at h
    split at h
    · next r3 heq =>
      split at h
      · exact absurd h (by simp)
      · simp only [Option.some.injEq, Prod.mk.injEq] at h
        obtain ⟨hsp, hr⟩ := h
        have hsplit := List.takeWhile_append_dropWhile (fun c => !(c == ')')) rr
        rw [heq] at hsplit
        have hw := List.takeWhile_append_dropWhile isPySpace r3
        subst hsp hr
        rw [hs]
        simp only [List.append_assoc, List.cons_append]
        rw [hw]
        conv_lhs => rw [← hsplit]
    · exact absurd h (by simp)

theorem matchAttrC_split (s sp r : Chars)
    (h : matchAttrC s = some (sp, r)) : s = sp ++ r := by
  unfold matchAttrC at h
  split at h
  · next rest =>
    split at h
    · next r2 heq =>
      split at h
      · exact absurd h (by simp)
      · simp only [Option.some.injEq, Prod.mk.injEq] at h
        obtain ⟨hsp, hr⟩ := h
        have hsplit := List.takeWhile_append_dropWhile (fun c => !(c == ']')) rest
        rw [heq] at hsplit
        have hw := List.takeWhile_append_dropWhile isPySpace r2
        subst hsp hr
        simp only [List.append_assoc, List.cons_append]
        rw [hw]
        conv_lhs => rw [← hsplit]
    · exact absurd h (by simp)
  · exact absurd h (by simp)

theorem matchDocD_split (s sp r : Chars)
    (h : matchDocD s = some (sp, r)) : s = sp ++ r := by
  unfold matchDocD at h
  generalize hm : matchLit "///".toList s = m at h
  cases m with
  | none => exact absurd h (by simp)
  | some rr =>
    have hs := matchLit_eq _ _ _ hm
    simp only [] at h
    split at h
    · next r2 heq =>
      simp only [Option.some.injEq, Prod.mk.injEq] at h
      obtain ⟨hsp, hr⟩ := h
      have hsplit := List.takeWhile_append_dropWhile (fun c => !(c == '\n')) rr
      rw [heq] at hsplit
      have hw := List.takeWhile_append_dropWhile isPySpace r2
      subst hsp hr
      rw [hs]
      simp only [List.append_assoc, List.cons_append]
      rw [hw]
      conv_lhs => rw [← hsplit]
    · exact absurd h (by simp)

theorem matchHeaderE_split (s sp nm r : Chars)
    (h : matchHeaderE s = some (sp, nm, r)) : s = sp ++ r := by
  unfold matchHeaderE at h
  generalize hm : matchLit "pub ".toList s = m at h
  cases m with
  | none => exact absurd h (by simp)
  | some r1 =>
    have hs := matchLit_eq _ _ _ hm
    simp only [] at h
    generalize hm2 : matchLit "struct ".toList r1 = m2 at h
    cases m2 with
    | some r2 =>
      have hs2 := matchLit_eq _ _ _ hm2
      simp only [] at h
      split at h
      · exact absurd h (by simp)
      · simp only [Option.some.injEq, Prod.mk.injEq] at h
        obtain ⟨hsp, _, hr⟩ := h
        have hw := List.takeWhile_append_dropWhile isPyWord r2
        subst hsp hr
        rw [hs, hs2]
        have hps : ("pub struct ".toList : Chars) = "pub ".toList ++ "struct ".toList := by decide
        rw [hps]
        simp only [List.append_assoc]
        rw [hw]
    | none =>
      simp only [] at h
      generalize hm3 : matchLit "enum ".toList r1 = m3 at h
      cases m3 with
      | some r2 =>
        have hs3 := matchLit_eq _ _ _ hm3
        simp only [] at h
        split at h
        · exact absurd h (by simp)
        · simp only [Option.some.injEq, Prod.mk.injEq] at h
          obtain ⟨hsp, _, hr⟩ := h
          have hw := List.takeWhile_append_dropWhile isPyWord r2
          subst hsp hr
          rw [hs, hs3]
          have hpe : ("pub enum ".toList : Chars) = "pub ".toList ++ "enum ".toList := by decide
          rw [hpe]
          simp only [List.append_assoc]
          rw [hw]
      | none => exact absurd h (by simp)

/-! ### The munch loops and the matcher split their input -/

theorem munchAF_split : ∀ fuel s, (munchAF fuel s).1 ++ (munchAF fuel s).2 = s := by
  intro fuel
  induction fuel with
  | zero => intro s; simp [munchAF]
  | succ f ih =>
    intro s
    simp only [munchAF]
    generalize hm : matchAttrA s = m
    cases m with
    | none => simp
    | some p =>
      obtain ⟨sp, r⟩ := p
      have hs := matchAttrA_split _ _ _ hm
      simp only [List.append_assoc, ih r]
      exact hs.symm

theorem munchBF_split : ∀ fuel s, (munchBF fuel s).1.flatten ++ (munchBF fuel s).2 = s := by
  intro fuel
  induction fuel with
  | zero => intro s; simp [munchBF]
  | succ f ih =>
    intro s
    simp only [munchBF]
    generalize hm : matchDeriveB s = m
    cases m with
    | none => simp
    | some p =>
      obtain ⟨sp, r⟩ := p
      have hs := matchDeriveB_split _ _ _ hm
      simp only [List.flatten_cons, List.append_assoc, ih r]
      exact hs.symm

theorem munchCF_split : ∀ fuel s, (munchCF fuel s).1 ++ (munchCF fuel s).2 = s := by
  intro fuel
  induction fuel with
  | zero => intro s; simp [munchCF]
  | succ f ih =>
    intro s
    simp only [munchCF]
    generalize hm : matchAttrC s = m
    cases m with
    | none => simp
    | some p =>
      obtain ⟨sp, r⟩ := p
      have hs := matchAttrC_split _ _ _ hm
      simp only [List.append_assoc, ih r]
      exact hs.symm

theorem munchDF_split : ∀ fuel s, (munchDF fuel s).1 ++ (munchDF fuel s).2 = s := by
  intro fuel
  induction fuel with
  | zero => intro s; simp [munchDF]
  | succ f ih =>
    intro s
    simp only [munchDF]
    generalize hm : matchDocD s = m
    cases m with
    | none => simp
    | some p =>
      obtain ⟨sp, r⟩ := p
      have hs := matchDocD_split _ _ _ hm
      simp only [List.append_assoc, ih r]
      exact hs.symm

theorem munchA_split (s : Chars) : (munchA s).1 ++ (munchA s).2 = s :=
  munchAF_split s.length s

theorem munchB_split (s : Chars) : (munchB s).1.flatten ++ (munchB s).2 = s :=
  munchBF_split s.length s

theorem munchC_split (s : Chars) : (munchC s).1 ++ (munchC s).2 = s :=
  munchCF_split s.length s

theorem munchD_split (s : Chars) : (munchD s).1 ++ (munchD s).2 = s :=
  munchDF_split s.length s

theorem tryTail_split (tail c d e nm r5 : Chars)
    (h : tryTail tail = some (c, d, e, nm, r5)) : tail = c ++ (d ++ (e ++ r5)) := by
  unfold tryTail at h
  split at h
  · next e2 nm2 r52 heq =>
    simp only [Option.some.injEq, Prod.mk.injEq] at h
    obtain ⟨hc, hd, he, hnm, hr⟩ := h
    have h3 := matchHeaderE_split _ _ _ _ heq
    subst hc hd he hnm hr
    conv_lhs => rw [← munchC_split tail]
    conv_lhs => rw [← munchD_split (munchC tail).2]
    rw [h3]
  · exact absurd h (by simp)

theorem tryBranchesRev_split :
    ∀ (rev : List Chars) (tail g2 c d e nm r5 : Chars),
      tryBranchesRev rev tail = some (g2, c, d, e, nm, r5) →
      rev.reverse.flatten ++ tail = g2 ++ (c ++ (d ++ (e ++ r5))) := by
  intro rev
  induction rev with
  | nil => intro tail g2 c d e nm r5 h; simp [tryBranchesRev] at h
  | cons b rest ih =>
    intro tail g2 c d e nm r5 h
    simp only [tryBranchesRev] at h
    generalize hm : tryTail tail = m at h
    cases m with
    | some p =>
      obtain ⟨c2, d2, e2, nm2, r52⟩ := p
      simp only [Option.some.injEq, Prod.mk.injEq] at h
      obtain ⟨hg2, hc, hd, he, hnm, hr⟩ := h
      have ht := tryTail_split _ _ _ _ _ _ hm
      subst hg2 hc hd he hnm hr
      rw [← ht]
    | none =>
      have := ih (b ++ tail) g2 c d e nm r5 h
      rw [← this]
      simp [List.flatten_append, List.append_assoc]

theorem tryFrom_split (s : Chars) (g : Groups) (r : Chars)
    (h : tryFrom s = some (g, r)) : s = wholeMatch g ++ r := by
  unfold tryFrom at h
  split at h
  · next g2 c d e nm r5 heq =>
    simp only [Option.some.injEq, Prod.mk.injEq] at h
    obtain ⟨hg, hr⟩ := h
    have h3 := tryBranchesRev_split _ _ _ _ _ _ _ _ heq
    rw [List.reverse_reverse] at h3
    subst hg hr
    simp only [wholeMatch, List.append_assoc]
    conv_lhs => rw [← munchA_split s]
    congr 1
    conv_lhs => rw [← munchB_split (munchA s).2]
    exact h3
  · exact absurd h (by simp)

theorem findMatch_split : ∀ (s pre rest : Chars) (g : Groups),
    findMatch s = some (pre, g, rest) → s = pre ++ (wholeMatch g ++ rest) := by
  intro s
  induction s with
  | nil =>
    intro pre rest g h
    simp only [findMatch] at h
    split at h
    · next g2 r2 heq =>
      simp only [Option.some.injEq, Prod.mk.injEq] at h
      obtain ⟨h1, h2, h3⟩ := h
      have := tryFrom_split _ _ _ heq
      subst h1 h2 h3
      simpa using this
    · exact absurd h (by simp)
  | cons ch cs ih =>
    intro pre rest g h
    simp only [findMatch] at h
    generalize hm : tryFrom (ch :: cs) = m at h
    cases m with
    | some p =>
      obtain ⟨g2, r2⟩ := p
      simp only [Option.some.injEq, Prod.mk.injEq] at h
      obtain ⟨h1, h2, h3⟩ := h
      have := tryFrom_split _ _ _ hm
      subst h1 h2 h3
      simpa using this
    | none =>
      generalize hm2 : findMatch cs = m2 at h
      cases m2 with
      | some p =>
        obtain ⟨pre2, g2, r2⟩ := p
        simp only [Option.some.injEq, Prod.mk.injEq] at h
        obtain ⟨h1, h2, h3⟩ := h
        have := ih _ _ _ hm2
        subst h1 h2 h3
        simp [this]
      | none => exact absurd h (by simp)

/-! ### A match always contains the derive-attribute opener -/

theorem containsSub_nil_needle : ∀ t : Chars, containsSub [] t = true := by
  intro t
  cases t <;> simp [containsSub, matchLit]

theorem containsSub_append_self : ∀ u n t : Chars, containsSub n (u ++ (n ++ t)) = true := by
  intro u
  induction u with
  | nil =>
    intro n t
    cases n with
    | nil => simpa using containsSub_nil_needle t
    | cons a as =>
      have hm : matchLit (a :: as) ((a :: as) ++ t) = some t := matchLit_self_append _ _
      simp only [List.nil_append, List.cons_append] at hm ⊢
      simp [containsSub, hm]
  | cons c cu ih =>
    intro n t
    simp only [List.cons_append, containsSub, List.append_eq]
    rw [ih]
    simp

theorem munchBF_head_derive :
    ∀ (f : Nat) (s : Chars), (munchBF f s).1 ≠ [] → ∃ sp r, matchDeriveB s = some (sp, r) := by
  intro f s h
  cases f with
  | zero => simp [munchBF] at h
  | succ f2 =>
    simp only [munchBF] at h
    generalize hm : matchDeriveB s = m at h
    cases m with
    | none => simp at h
    | some p =>
      obtain ⟨sp, r⟩ := p
      exact ⟨sp, r, rfl⟩

theorem matchDeriveB_opens (s sp r : Chars) (h : matchDeriveB s = some (sp, r)) :
    ∃ t, s = deriveOpenStr ++ t := by
  unfold matchDeriveB at h
  generalize hm : matchLit "#[derive(".toList s = m at h
  cases m with
  | none => exact absurd h (by simp)
  | some rr => exact ⟨rr, by simpa [deriveOpenStr] using matchLit_eq _ _ _ hm⟩

theorem tryFrom_derive (s : Chars) (x : Groups × Chars) (h : tryFrom s = some x) :
    containsSub deriveOpenStr s = true := by
  unfold tryFrom at h
  split at h
  · next g2 c d e nm r5 heq =>
    cases hbs : (munchB (munchA s).2).1 with
    | nil => rw [hbs] at heq; simp [tryBranchesRev] at heq
    | cons b bs =>
      obtain ⟨sp, r, hB⟩ := munchBF_head_derive (munchA s).2.length (munchA s).2 (by
        show (munchB (munchA s).2).1 ≠ []
        rw [hbs]; simp)
      obtain ⟨t, ht⟩ := matchDeriveB_opens _ _ _ hB
      have hsplit := munchA_split s
      rw [ht] at hsplit
      rw [← hsplit]
      exact containsSub_append_self _ _ _
  · exact absurd h (by simp)

theorem findMatch_derive :
    ∀ (s : Chars) (x : Chars × Groups × Chars), findMatch s = some x →
      containsSub deriveOpenStr s = true := by
  intro s
  induction s with
  | nil =>
    intro x h
    simp only [findMatch] at h
    generalize hm : tryFrom [] = m at h
    cases m with
    | some p => exact tryFrom_derive _ _ hm
    | none => simp at h
  | cons ch cs ih =>
    intro x h
    simp only [findMatch] at h
    generalize hm : tryFrom (ch :: cs) = m at h
    cases m with
    | some p => exact tryFrom_derive _ _ hm
    | none =>
      generalize hm2 : findMatch cs = m2 at h
      cases m2 with
      | some p2 =>
        have := ih p2 hm2
        simp [containsSub, this]
      | none => simp at h

theorem findMatch_none_of_noDerive (s : Chars)
    (h : containsSub deriveOpenStr s = false) : findMatch s = none := by
  cases hm : findMatch s with
  | none => rfl
  | some x =>
    have := findMatch_derive s x hm
    rw [h] at this
    exact absurd this (by simp)

theorem reSubAllF_of_findMatch_none :
    ∀ (f : Nat) (s : Chars), findMatch s = none → reSubAllF f s = s := by
  intro f s h
  cases f with
  | zero => rfl
  | succ f2 => simp [reSubAllF, h]

/-! ### The replacement function, by cases on the skip checks -/

theorem pyRstrip_decomp (s : Chars) :
    ∃ w, (∀ c ∈ w, isPySpace c = true) ∧ pyRstrip s ++ w = s := by
  refine ⟨(s.reverse.takeWhile isPySpace).reverse, ?_, ?_⟩
  · intro c hc
    rw [List.mem_reverse] at hc
    exact List.mem_takeWhile_imp hc
  · unfold pyRstrip
    rw [← List.reverse_append, List.takeWhile_append_dropWhile, List.reverse_reverse]

theorem countColon_append (a b : Chars) :
    countColon (a ++ b) = countColon a + countColon b := List.count_append _ _ _

theorem countColon_pyRstrip (s : Chars) : countColon (pyRstrip s) = countColon s := by
  obtain ⟨w, hw, hs⟩ := pyRstrip_decomp s
  have h0 : countColon w = 0 := by
    rw [countColon, List.count_eq_zero]
    intro hmem
    exact absurd (hw _ hmem) (by decide)
  conv_rhs => rw [← hs]
  rw [countColon_append, h0]
  omega

theorem countColon_markerLine : countColon markerLine = 2 := by decide

theorem addSeparateDerive_of_not_qualifies (g : Groups) (rest : Chars)
    (h : qualifies g rest = false) : addSeparateDerive g rest = wholeMatch g := by
  unfold addSeparateDerive
  by_cases h1 : containsSub markerStr (pyRstrip g.g2) = true
  · rw [if_pos h1]
  · rw [if_neg h1]
    by_cases h2 : typesToSkip.contains g.name = true
    · rw [if_pos h2]
    · rw [if_neg h2]
      by_cases h3 : problematicTypes.any (fun p => containsSub p (structContent rest)) = true
      · rw [if_pos h3]
      · exfalso
        unfold qualifies at h
        rw [eq_false_of_ne_true h1, eq_false_of_ne_true h2, eq_false_of_ne_true h3] at h
        simp at h

theorem addSeparateDerive_of_qualifies (g : Groups) (rest : Chars)
    (h : qualifies g rest = true) :
    addSeparateDerive g rest =
      g.g1 ++ (pyRstrip g.g2 ++ (markerLine ++ (g.g3 ++ (g.g4 ++ g.g5)))) := by
  unfold qualifies at h
  simp only [Bool.and_eq_true, Bool.not_eq_true'] at h
  obtain ⟨⟨h1, h2⟩, h3⟩ := h
  unfold addSeparateDerive
  simp only [h1, h2, h3, if_false, Bool.false_eq_true]
  cases hg3 : g.g3.isEmpty
  · simp [hg3]
  · have : g.g3 = [] := List.isEmpty_iff.mp hg3
    simp [hg3, this]

theorem countColon_addSeparateDerive (g : Groups) (rest : Chars) :
    countColon (addSeparateDerive g rest) =
      countColon (wholeMatch g) + (if qualifies g rest = true then 2 else 0) := by
  by_cases hq : qualifies g rest = true
  · rw [addSeparateDerive_of_qualifies g rest hq, if_pos hq]
    simp only [wholeMatch, countColon_append, countColon_pyRstrip, countColon_markerLine]
    ring
  · rw [addSeparateDerive_of_not_qualifies g rest (eq_false_of_ne_true hq), if_neg hq]
    omega

theorem reSubAllF_count :
    ∀ (f : Nat) (s : Chars),
      countColon (reSubAllF f s) = countColon s + 2 * annotationsF f s := by
  intro f
  induction f with
  | zero => intro s; simp [reSubAllF, annotationsF]
  | succ f2 ih =>
    intro s
    simp only [reSubAllF, annotationsF]
    generalize hm : findMatch s = m
    cases m with
    | none => simp
    | some p =>
      obtain ⟨pre, g, rest⟩ := p
      have hsplit := findMatch_split s pre rest g hm
      simp only []
      rw [countColon_append, countColon_append, countColon_addSeparateDerive, ih rest]
      conv_rhs => rw [hsplit]
      rw [countColon_append, countColon_append]
      by_cases hq : qualifies g rest = true
      · rw [if_pos hq, if_pos hq]
        ring
      · rw [if_neg hq, if_neg hq]
        ring

theorem annotationsF_zero_unchanged :
    ∀ (f : Nat) (s : Chars), annotationsF f s = 0 → reSubAllF f s = s := by
  intro f
  induction f with
  | zero => intro s _; rfl
  | succ f2 ih =>
    intro s h
    simp only [annotationsF] at h
    simp only [reSubAllF]
    generalize hm : findMatch s = m at h
    cases m with
    | none => rfl
    | some p =>
      obtain ⟨pre, g, rest⟩ := p
      simp only [] at h
      have hq : qualifies g rest = false := by
        by_cases hq2 : qualifies g rest = true
        · rw [if_pos hq2] at h; omega
        · exact eq_false_of_ne_true hq2
      have hrec : annotationsF f2 rest = 0 := by
        rw [hq] at h
        simpa using h
      show pre ++ (addSeparateDerive g rest ++ reSubAllF f2 rest) = s
      rw [addSeparateDerive_of_not_qualifies g rest hq, ih rest hrec]
      exact (findMatch_split s pre rest g hm).symm

/-! ### The body-extraction loop -/

theorem rbrace_ne_lbrace : rbrace = lbrace → False := by decide

theorem extractBody_true_eq_specCollect :
    ∀ (t : Chars) (d : Int), extractBody t d true = specCollect t d := by
  intro t
  induction t with
  | nil => intro d; rfl
  | cons c t2 ih =>
    intro d
    by_cases hc : c = lbrace
    · simp [extractBody, specCollect, hc, ih]
    · by_cases hc2 : c = rbrace
      · subst hc2
        by_cases hd : d - 1 = 0
        · simp [extractBody, specCollect, hc, hd]
        · simp [extractBody, specCollect, hc, hd, ih]
      · simp [extractBody, specCollect, hc, hc2, ih]

theorem extractBody_false_of_no_lbrace :
    ∀ (t : Chars) (d : Int), (∀ c ∈ t, c ≠ lbrace) → extractBody t d false = [] := by
  intro t
  induction t with
  | nil => intro d _; rfl
  | cons c t2 ih =>
    intro d h
    have hc : c ≠ lbrace := h c (by simp)
    have ht : ∀ x ∈ t2, x ≠ lbrace := fun x hx => h x (by simp [hx])
    by_cases hc2 : c = rbrace
    · subst hc2
      simp [extractBody, hc, ih _ ht]
    · simp [extractBody, hc, hc2, ih _ ht]

theorem extractBody_skip_no_lbrace :
    ∀ (pre : Chars), (∀ c ∈ pre, c ≠ lbrace) → ∀ (r : Chars) (d : Int),
      extractBody (pre ++ r) d false = extractBody r (d - pre.count rbrace) false := by
  intro pre
  induction pre with
  | nil => intro _ r d; simp
  | cons c p2 ih =>
    intro h r d
    have hc : c ≠ lbrace := h c (by simp)
    have hp : ∀ x ∈ p2, x ≠ lbrace := fun x hx => h x (by simp [hx])
    by_cases hc2 : c = rbrace
    · subst hc2
      rw [List.cons_append]
      have hred : extractBody (rbrace :: (p2 ++ r)) d false =
          extractBody (p2 ++ r) (d - 1) false := by
        simp [extractBody, hc]
      rw [hred, ih hp r (d - 1)]
      congr 1
      rw [List.count_cons]
      rw [if_pos (by simp)]
      push_cast
      ring
    · rw [List.cons_append]
      have hred : extractBody (c :: (p2 ++ r)) d false = extractBody (p2 ++ r) d false := by
        simp [extractBody, hc, hc2]
      rw [hred, ih hp r d]
      congr 1
      rw [List.count_cons]
      rw [if_neg (by simp; exact fun hh => hc2 hh)]
      simp

theorem structContent_no_lbrace (rest : Chars) (h : rest.contains lbrace = false) :
    structContent rest = [] := by
  apply extractBody_false_of_no_lbrace
  intro c hc hceq
  subst hceq
  have helem : List.elem lbrace rest = false := h
  rw [List.elem_eq_mem] at helem
  simp at helem
  exact helem hc

/-! ### Helper for the first character dropped by dropWhile -/

theorem dropWhile_head_false :
    ∀ (l : Chars) (p : Char → Bool) (c : Char) (t : Chars),
      l.dropWhile p = c :: t → p c = false := by
  intro l p c t h
  induction l with
  | nil => simp [List.dropWhile] at h
  | cons a l2 ih =>
    rw [List.dropWhile_cons] at h
    split at h
    · exact ih h
    · next hpa =>
      injection h with h1 _
      subst h1
      exact eq_false_of_ne_true hpa

/-! ### The claims -/

set_option maxRecDepth 4000

/-- Claim C2, counterexample: the claim asserts that annotation is a pure
insertion (exactly one new marker line, all other original text preserved
byte for byte).  On an input whose derive block is followed by three
spaces and a newline, the three spaces are dropped (group 2 is rstripped
and rejoined with a single newline), so the output is not the input with
one inserted segment: no split point admits such an insertion, because
the output has fewer space characters than the input. -/
theorem claim_C2_counterexample :
    addUtoipaText "#[derive(Debug)]   \npub struct Foo \x7b \x7d".toList =
      ("#[derive(Debug)]\n#[derive(utoipa::ToSchema)]\npub struct Foo \x7b \x7d".toList, true) ∧
    ¬ ∃ (p : Nat) (ins : Chars),
        ("#[derive(Debug)]\n#[derive(utoipa::ToSchema)]\npub struct Foo \x7b \x7d".toList : Chars) =
          ("#[derive(Debug)]   \npub struct Foo \x7b \x7d".toList : Chars).take p ++ ins ++
            ("#[derive(Debug)]   \npub struct Foo \x7b \x7d".toList : Chars).drop p := by
  constructor
  · decide
  · rintro ⟨p, ins, h⟩
    have hcount := congrArg (List.count ' ') h
    rw [List.count_append, List.count_append] at hcount
    have hsplit :=
      congrArg (List.count ' ')
        (List.take_append_drop p ("#[derive(Debug)]   \npub struct Foo \x7b \x7d".toList : Chars))
    rw [List.count_append] at hsplit
    have h4 : List.count ' '
        ("#[derive(Debug)]\n#[derive(utoipa::ToSchema)]\npub struct Foo \x7b \x7d".toList : Chars) = 4 := by
      decide
    have h7 : List.count ' ' ("#[derive(Debug)]   \npub struct Foo \x7b \x7d".toList : Chars) = 7 := by
      decide
    rw [h4] at hcount
    rw [h7] at hsplit
    omega

/-- Claim C2, amended: when a match qualifies, the replacement is the
captured pre-derive attributes, the derive block with its trailing
whitespace right-stripped, exactly one inserted marker line (a newline,
the marker attribute, a newline), then the other attributes, doc comments
and header verbatim.  So all captured spans are preserved byte for byte
except the whitespace that followed the derive block, which is replaced
by a single newline (the stripped tail is pure whitespace). -/
theorem claim_C2 (g : Groups) (rest : Chars) (h : qualifies g rest = true) :
    addSeparateDerive g rest =
      g.g1 ++ (pyRstrip g.g2 ++ (markerLine ++ (g.g3 ++ (g.g4 ++ g.g5)))) ∧
    ∃ w, (∀ c ∈ w, isPySpace c = true) ∧ g.g2 = pyRstrip g.g2 ++ w :=
  ⟨addSeparateDerive_of_qualifies g rest h, by
    obtain ⟨w, hw, hs⟩ := pyRstrip_decomp g.g2
    exact ⟨w, hw, hs.symm⟩⟩

/-- Witness for claim C2 at a concrete qualifying declaration. -/
theorem claim_C2_witness :
    qualifies ⟨[], "#[derive(Debug)]\n".toList, [], [], "pub struct Foo".toList, "Foo".toList⟩
        " \x7b a: u8 \x7d".toList = true ∧
    (addSeparateDerive
        ⟨[], "#[derive(Debug)]\n".toList, [], [], "pub struct Foo".toList, "Foo".toList⟩
        " \x7b a: u8 \x7d".toList =
      [] ++ (pyRstrip "#[derive(Debug)]\n".toList ++
        (markerLine ++ ([] ++ ([] ++ "pub struct Foo".toList)))) ∧
    ∃ w, (∀ c ∈ w, isPySpace c = true) ∧
      ("#[derive(Debug)]\n".toList : Chars) = pyRstrip "#[derive(Debug)]\n".toList ++ w) :=
  ⟨by decide, claim_C2 _ _ (by decide)⟩

/-- Claim C3: the extracted body is computed exactly as the specification
describes: a character-by-character scan with a depth counter incremented
at every opening brace and decremented at every closing brace, collection
starting at the first opening brace, and the scan stopping at the closing
brace that returns the depth counter to zero after at least one brace has
been opened. -/
theorem claim_C3 (s : Chars) : structContent s = extractBodySpec s := by
  unfold structContent extractBodySpec
  cases hd : s.dropWhile (fun c => !(c == lbrace)) with
  | nil =>
    have htake : s.takeWhile (fun c => !(c == lbrace)) = s := by
      have h2 := List.takeWhile_append_dropWhile (fun c => !(c == lbrace)) s
      rw [hd, List.append_nil] at h2
      exact h2
    simp only [hd]
    apply extractBody_false_of_no_lbrace
    intro c hc
    rw [← htake] at hc
    have := List.mem_takeWhile_imp hc
    simpa using this
  | cons c t =>
    have hc : c = lbrace := by
      have := dropWhile_head_false s (fun c => !(c == lbrace)) c t hd
      simpa using this
    subst hc
    have hpre : ∀ x ∈ s.takeWhile (fun c => !(c == lbrace)), x ≠ lbrace := by
      intro x hx
      have := List.mem_takeWhile_imp hx
      simpa using this
    have hsplit : s.takeWhile (fun c => !(c == lbrace)) ++ (lbrace :: t) = s := by
      conv_rhs => rw [← List.takeWhile_append_dropWhile (fun c => !(c == lbrace)) s]
      rw [hd]
    simp only [hd]
    conv_lhs => rw [← hsplit]
    rw [extractBody_skip_no_lbrace _ hpre]
    simp [extractBody, specCollect, extractBody_true_eq_specCollect, zero_sub]

/-- Claim C4: a matched declaration whose captured name is in the fixed
name-exclusion set is returned unchanged (the replacement is the whole
matched span), whatever the body content is. -/
theorem claim_C4 (g : Groups) (rest : Chars) (h : typesToSkip.contains g.name = true) :
    addSeparateDerive g rest = wholeMatch g := by
  unfold addSeparateDerive
  by_cases h1 : containsSub markerStr (pyRstrip g.g2) = true
  · rw [if_pos h1]
  · rw [if_neg h1, if_pos h]

/-- Witness for claim C4: the Image declaration of the specification
example is returned unchanged. -/
theorem claim_C4_witness :
    typesToSkip.contains ("Image".toList : Chars) = true ∧
    addSeparateDerive
        ⟨[], "#[derive(Debug, Clone)]\n".toList, [], [], "pub struct Image".toList,
          "Image".toList⟩ " \x7b data: Arc<String> \x7d".toList =
      wholeMatch ⟨[], "#[derive(Debug, Clone)]\n".toList, [], [], "pub struct Image".toList,
        "Image".toList⟩ :=
  ⟨by decide, claim_C4 _ _ (by decide)⟩

/-- Claim C5: a matched declaration whose brace-balanced extracted body
contains any substring of the field-type exclusion set is returned
unchanged, also when its name is not excluded. -/
theorem claim_C5 (g : Groups) (rest : Chars)
    (h : problematicTypes.any (fun p => containsSub p (structContent rest)) = true) :
    addSeparateDerive g rest = wholeMatch g := by
  unfold addSeparateDerive
  by_cases h1 : containsSub markerStr (pyRstrip g.g2) = true
  · rw [if_pos h1]
  · rw [if_neg h1]
    by_cases h2 : typesToSkip.contains g.name = true
    · rw [if_pos h2]
    · rw [if_neg h2, if_pos h]

/-- Witness for claim C5: the Wrapper declaration with a PathBuf field of
the specification example is returned unchanged. -/
theorem claim_C5_witness :
    (problematicTypes.any
      (fun p => containsSub p (structContent " \x7b path: PathBuf \x7d".toList))) = true ∧
    addSeparateDerive
        ⟨[], "#[derive(Debug)]\n".toList, [], [], "pub struct Wrapper".toList,
          "Wrapper".toList⟩ " \x7b path: PathBuf \x7d".toList =
      wholeMatch ⟨[], "#[derive(Debug)]\n".toList, [], [], "pub struct Wrapper".toList,
        "Wrapper".toList⟩ :=
  ⟨by decide, claim_C5 _ _ (by decide)⟩

/-- Claim C6: a text that nowhere contains the derive-attribute opener
(in particular a declaration with no derive-attribute block at all) has
no match of the pattern, and the whole-file transform returns it byte for
byte unchanged with a false changed-flag. -/
theorem claim_C6 (s : Chars) (h : containsSub deriveOpenStr s = false) :
    addUtoipaText s = (s, false) := by
  have hnone := findMatch_none_of_noDerive s h
  have hsub : reSubAll s = s := reSubAllF_of_findMatch_none s.length s hnone
  unfold addUtoipaText
  rw [hsub]
  simp

/-- Witness for claim C6: a struct with no derive attributes passes
through unchanged. -/
theorem claim_C6_witness :
    containsSub deriveOpenStr "pub struct Foo \x7b bar: String \x7d".toList = false ∧
    addUtoipaText "pub struct Foo \x7b bar: String \x7d".toList =
      ("pub struct Foo \x7b bar: String \x7d".toList, false) :=
  ⟨by decide, claim_C6 _ (by decide)⟩

/-- Claim C7: the whole-file contract.  The changed-flag is true exactly
when the rewritten text differs from the input, and exactly when at least
one candidate match passed all three skip checks and was annotated during
the single left-to-right substitution pass. -/
theorem claim_C7 (s : Chars) :
    ((addUtoipaText s).2 = true ↔ (addUtoipaText s).1 ≠ s) ∧
    ((addUtoipaText s).2 = true ↔ 0 < annotationsOf s) := by
  constructor
  · simp [addUtoipaText]
  · unfold addUtoipaText annotationsOf
    simp only [decide_eq_true_eq]
    constructor
    · intro hne
      by_contra hz
      have h0 : annotationsF s.length s = 0 := by omega
      exact hne (annotationsF_zero_unchanged _ _ h0)
    · intro hpos heq
      have hc := reSubAllF_count s.length s
      unfold reSubAll at heq
      rw [heq] at hc
      omega

/-- Claim C8: the specification example.  The single derive line gains a
separate marker line between the derive block and the header, and the
changed-flag is true. -/
theorem claim_C8 :
    addUtoipaText "#[derive(Debug, Clone)]\npub struct Foo \x7b bar: String \x7d".toList =
      ("#[derive(Debug, Clone)]\n#[derive(utoipa::ToSchema)]\npub struct Foo \x7b bar: String \x7d".toList,
        true) := by
  decide

/-- Claim C9: per-file error handling.  A failing read yields (no result,
changed = false) together with an error line naming the file, and the
processing loop still processes every other file: the outcomes of the
files before and after the failing one are unaffected. -/
theorem claim_C9 (p e : Chars) (pre post : List FileEntry) (f : FileEntry)
    (hf : f.read = PyResult.exn e) :
    addUtoipaToFile p (PyResult.exn e) = ((none, false), [errorLine p e]) ∧
    processFiles (pre ++ f :: post) = processFiles pre ++ Outcome.failed :: processFiles post := by
  refine ⟨rfl, ?_⟩
  unfold processFiles
  rw [List.map_append, List.map_cons]
  have hone : processOne f = Outcome.failed := by
    unfold processOne
    rw [hf]
    rfl
  rw [hone]

/-- Witness for claim C9 at a concrete failing file. -/
theorem claim_C9_witness :
    (⟨"a.rs".toList, PyResult.exn "boom".toList⟩ : FileEntry).read =
      PyResult.exn "boom".toList ∧
    (addUtoipaToFile "a.rs".toList (PyResult.exn "boom".toList) =
      ((none, false), [errorLine "a.rs".toList "boom".toList]) ∧
    processFiles ([] ++ (⟨"a.rs".toList, PyResult.exn "boom".toList⟩ : FileEntry) :: []) =
      processFiles [] ++ Outcome.failed :: processFiles []) :=
  ⟨rfl, claim_C9 "a.rs".toList "boom".toList [] [] _ rfl⟩

/-- Claim C10: for a matched declaration whose following text contains no
opening brace, the extracted body is empty, so the body-content exclusion
cannot trigger; the declaration is annotated whenever its derive block
lacks the marker and its name is not excluded, even if its parenthesized
fields contain excluded type substrings. -/
theorem claim_C10 (g : Groups) (rest : Chars)
    (h1 : rest.contains lbrace = false)
    (h2 : containsSub markerStr (pyRstrip g.g2) = false)
    (h3 : typesToSkip.contains g.name = false) :
    structContent rest = [] ∧
    addSeparateDerive g rest =
      g.g1 ++ (pyRstrip g.g2 ++ (markerLine ++ (g.g3 ++ (g.g4 ++ g.g5)))) := by
  have hsc := structContent_no_lbrace rest h1
  refine ⟨hsc, ?_⟩
  apply addSeparateDerive_of_qualifies
  unfold qualifies
  simp only [hsc, h2, h3]
  decide

/-- Witness for claim C10: a tuple struct with a PathBuf field at the end
of the text is annotated anyway. -/
theorem claim_C10_witness :
    ("(PathBuf);".toList : Chars).contains lbrace = false ∧
    (structContent "(PathBuf);".toList = [] ∧
    addSeparateDerive
        ⟨[], "#[derive(Debug)]\n".toList, [], [], "pub struct Foo".toList, "Foo".toList⟩
        "(PathBuf);".toList =
      [] ++ (pyRstrip "#[derive(Debug)]\n".toList ++
        (markerLine ++ ([] ++ ([] ++ "pub struct Foo".toList)))) ) :=
  ⟨by decide, claim_C10 _ _ (by decide) (by decide) (by decide)⟩

end UtoipaScript
